import Mathlib

/-!
# Verification of the compLex character-acceptor combinator library

A shallow embedding of `src/compLex.go`. A Go `Acceptor` is a mutable
closure `func(rune) bool`; each combinator's captured variables (counts,
flags, cursors, memoized continuations) become the fields of an explicit
state value, and one call on the closure becomes one application of the
`step` function, returning the boolean answer together with the updated
state. Go `panic` (used by the assertion combinators, and implicitly by
invoking a nil function value) is modelled as an explicit non-`ok` step
result. The error payload type of `panic(err)` is a type parameter `ε`.
-/

namespace CompLex

mutual

/-- The state of one Go `Acceptor` instance.  Constructors:
* `pred f` — a stateless acceptor built from a pure predicate: the closures
  returned by `Acc` for a rune / rune-slice / string / range-table spec, and
  `All` / `None`.
* `dead` — the nil function value (`Acc`'s `default` branch returns a nil
  `Acceptor`; `FirstOf` sets its internal `state` to nil after total
  rejection).  Invoking it is a Go runtime panic.
* `truncate max count acc` — the closure of `Truncate`, capturing `max`,
  the mutable `count`, and the wrapped acceptor's current state.
* `endsBefore delim acc` — the closure of `EndsBefore`.
* `endsWith seen delim acc` — the closure of `EndsWith` with its mutable
  `seen` flag.
* `chain accs` — the closure of `Chain`; the Go code keeps the full slice
  plus a cursor `i` that only grows, which is represented here by the
  remaining suffix `accs` (elements before the cursor are never consulted
  again).
* `firstOf accs` — `FirstOf` before commitment; after the first call the
  state is either the winning acceptor itself (`statify` of a closure
  behaves exactly as the closure) or `dead`.
* `assertStart acc err` — `AssertStart` before its first call; after an
  accepted first call the state is the wrapped acceptor itself.
* `assertAtMost acc most count err` — the closure of `AssertAtMost`.

`Branch` is not modelled: no property below concerns it. -/
inductive Acceptor (ε : Type) : Type where
  | pred (f : Char → Bool) : Acceptor ε
  | dead : Acceptor ε
  | truncate (max count : Int) (acc : Acceptor ε) : Acceptor ε
  | endsBefore (delim : Char) (acc : Acceptor ε) : Acceptor ε
  | endsWith (seen : Bool) (delim : Char) (acc : Acceptor ε) : Acceptor ε
  | chain (accs : AccList ε) : Acceptor ε
  | firstOf (accs : AccList ε) : Acceptor ε
  | assertStart (acc : Acceptor ε) (err : ε) : Acceptor ε
  | assertAtMost (acc : Acceptor ε) (most count : Int) (err : ε) : Acceptor ε

/-- A list of acceptor states (Go: `[]Acceptor` / variadic `...Acceptor`),
as a mutual inductive so that `step` can recurse structurally. -/
inductive AccList (ε : Type) : Type where
  | nil : AccList ε
  | cons (a : Acceptor ε) (as : AccList ε) : AccList ε

end

/-- The result of one call on an acceptor: a normal boolean return with the
updated state, a `panic(e)` raised by an assertion combinator, or the Go
runtime panic from invoking a nil function value. -/
inductive StepRes (ε : Type) : Type where
  | ok (b : Bool) (next : Acceptor ε) : StepRes ε
  | raised (e : ε) : StepRes ε
  | nilCall : StepRes ε

/-- The result of the cursor loop inside `Chain`: a boolean return plus the
remaining acceptor suffix, or a propagated panic. -/
inductive ChainRes (ε : Type) : Type where
  | ok (b : Bool) (rest : AccList ε) : ChainRes ε
  | raised (e : ε) : ChainRes ε
  | nilCall : ChainRes ε

variable {ε : Type}

mutual

/-- One call on an acceptor instance (`src/compLex.go`, each combinator's
returned closure), as a state transition. -/
def step : Acceptor ε → Char → StepRes ε
  | .pred f, rn => .ok (f rn) (.pred f)
  | .dead, _ => .nilCall
  | .truncate max count acc, rn =>
      -- `if count < max && acc(rn) { count++; return true }; return false`
      -- (`acc` is only invoked when `count < max`, by short-circuit).
      if count < max then
        match step acc rn with
        | .ok true acc2 => .ok true (.truncate max (count + 1) acc2)
        | .ok false acc2 => .ok false (.truncate max count acc2)
        | .raised e => .raised e
        | .nilCall => .nilCall
      else .ok false (.truncate max count acc)
  | .endsBefore delim acc, rn =>
      -- `if rn == delim { return false }; return acc(rn)`
      if rn == delim then .ok false (.endsBefore delim acc)
      else
        match step acc rn with
        | .ok b acc2 => .ok b (.endsBefore delim acc2)
        | .raised e => .raised e
        | .nilCall => .nilCall
  | .endsWith seen delim acc, rn =>
      -- `if seen { return false }; if rn == delim { seen = true; return true }`
      if seen then .ok false (.endsWith seen delim acc)
      else if rn == delim then .ok true (.endsWith true delim acc)
      else
        match step acc rn with
        | .ok b acc2 => .ok b (.endsWith false delim acc2)
        | .raised e => .raised e
        | .nilCall => .nilCall
  | .chain accs, rn =>
      match stepChain accs rn with
      | .ok b rest => .ok b (.chain rest)
      | .raised e => .raised e
      | .nilCall => .nilCall
  | .firstOf accs, rn => stepFirstOf accs rn
  | .assertStart acc err, rn =>
      -- `if !acc(rn) { panic(err) }; return true, statify(acc)`
      match step acc rn with
      | .ok true acc2 => .ok true acc2
      | .ok false _ => .raised err
      | .raised e => .raised e
      | .nilCall => .nilCall
  | .assertAtMost acc most count err, rn =>
      match step acc rn with
      | .ok true acc2 =>
          if count == most then .raised err
          else .ok true (.assertAtMost acc2 most (count + 1) err)
      | .ok false acc2 => .ok false (.assertAtMost acc2 most count err)
      | .raised e => .raised e
      | .nilCall => .nilCall

/-- The loop `for ; i != n; i++ { if accs[i](rn) { return true } }` of
`Chain`: try the acceptor at the cursor; on rejection the cursor advances
permanently (the rejecting element is dropped) and the same character is
offered to the next one; an exhausted suffix answers `false`. -/
def stepChain : AccList ε → Char → ChainRes ε
  | .nil, _ => .ok false .nil
  | .cons a as, rn =>
      match step a rn with
      | .ok true a2 => .ok true (.cons a2 as)
      | .ok false _ => stepChain as rn
      | .raised e => .raised e
      | .nilCall => .nilCall

/-- The first call of `FirstOf`: probe the candidates in order; the first
acceptor that accepts the character wins and (already having consumed the
character) becomes the whole state; if none accepts, the internal `state`
is set to nil (`return false, nil`). -/
def stepFirstOf : AccList ε → Char → StepRes ε
  | .nil, _ => .ok false .dead
  | .cons a as, rn =>
      match step a rn with
      | .ok true a2 => .ok true a2
      | .ok false _ => stepFirstOf as rn
      | .raised e => .raised e
      | .nilCall => .nilCall

end

/-- The construction specs accepted by `Acc`'s type switch
(`interface{}`): an existing `Acceptor`, a `rune`, a `[]rune`, a `string`,
a `*unicode.RangeTable`, a `[]*unicode.RangeTable` (range tables are
opaque membership predicates here), or any other value (`default`). -/
inductive Spec (ε : Type) : Type where
  | acceptor (a : Acceptor ε) : Spec ε
  | rune (rn : Char) : Spec ε
  | runes (rs : List Char) : Spec ε
  | str (s : String) : Spec ε
  | table (t : Char → Bool) : Spec ε
  | tables (ts : List (Char → Bool)) : Spec ε
  | other : Spec ε

/-- `Acc(spec interface{}) Acceptor` (src/compLex.go lines 13–50). The
`default` branch returns the nil `Acceptor`. -/
def Acc : Spec ε → Acceptor ε
  | .acceptor spec => spec
  | .rune spec => .pred fun rn => rn == spec
  | .runes spec => .pred fun rn => spec.any fun ex => rn == ex
  | .str spec => .pred fun rn => spec.data.any fun ex => rn == ex
  | .table spec => .pred fun rn => spec rn
  | .tables spec => .pred fun rn => spec.any fun t => t rn
  | .other => .dead

/-- `All()`: accepts every character. -/
def All : Acceptor ε := .pred fun _ => true

/-- `None()`: rejects every character. -/
def None : Acceptor ε := .pred fun _ => false

/-- `statify(acc)` wraps an acceptor closure into a `state` that invokes
the same closure on every call; as a stream transformer it is the
acceptor itself, so in this embedding it is the identity. -/
def statify (acc : Acceptor ε) : Acceptor ε := acc

/-- `Chain(accs ...Acceptor)` with cursor at the start. -/
def Chain (accs : AccList ε) : Acceptor ε := .chain accs

/-- `Truncate(max, acc)` with `count` starting at 0. -/
def Truncate (max : Int) (acc : Acceptor ε) : Acceptor ε := .truncate max 0 acc

/-- `Skip(skip, acc) = Chain(Truncate(skip, All()), acc)`. -/
def Skip (skip : Int) (acc : Acceptor ε) : Acceptor ε :=
  Chain (.cons (Truncate skip All) (.cons acc .nil))

/-- `FirstOf(accs ...Acceptor)` before its first call. -/
def FirstOf (accs : AccList ε) : Acceptor ε := .firstOf accs

/-- `EndsBefore(delim, acc)`. -/
def EndsBefore (delim : Char) (acc : Acceptor ε) : Acceptor ε := .endsBefore delim acc

/-- `EndsWith(delim, acc)` with `seen` starting false. -/
def EndsWith (delim : Char) (acc : Acceptor ε) : Acceptor ε := .endsWith false delim acc

/-- `AssertStart(acc, err)` before its first call. -/
def AssertStart (acc : Acceptor ε) (err : ε) : Acceptor ε := .assertStart acc err

/-- `AssertAtMost(acc, most, err)` with `count` starting at 0. -/
def AssertAtMost (acc : Acceptor ε) (most : Int) (err : ε) : Acceptor ε :=
  .assertAtMost acc most 0 err

/-- The externally observable outcome of one call: a boolean return, a
`panic(e)` with the caller-supplied payload, or the nil-function-call
runtime panic. -/
inductive Outcome (ε : Type) : Type where
  | ret (b : Bool) : Outcome ε
  | raised (e : ε) : Outcome ε
  | nilFail : Outcome ε
deriving DecidableEq

/-- Drive one acceptor instance with a stream of characters, one call per
character, recording each call's outcome; a panic aborts the run (no
further calls happen). -/
def trace : Acceptor ε → List Char → List (Outcome ε)
  | _, [] => []
  | a, rn :: rest =>
    match step a rn with
    | .ok b a2 => .ret b :: trace a2 rest
    | .raised e => [.raised e]
    | .nilCall => [.nilFail]

/-- Drive one acceptor instance with a stream of characters; if no call
panics, return the boolean answers and the final state. -/
def runOk : Acceptor ε → List Char → Option (List Bool × Acceptor ε)
  | a, [] => some ([], a)
  | a, rn :: rest =>
    match step a rn with
    | .ok b a2 =>
      match runOk a2 rest with
      | some p => some (b :: p.1, p.2)
      | none => none
    | .raised _ => none
    | .nilCall => none

/-- The boolean answers of `Chain(acc)` (a one-element chain) given the
answers the wrapped acceptor alone would produce on the same stream: they
agree up to and including the wrapped acceptor's first rejection, after
which the exhausted chain answers `false` unconditionally. -/
def chainOneExpect : List Bool → List Bool
  | [] => []
  | true :: l => true :: chainOneExpect l
  | false :: l => false :: l.map fun _ => false

/-- Every candidate in the list rejects the character with a normal
boolean return (no panic). -/
def AllReject : AccList ε → Char → Prop
  | .nil, _ => True
  | .cons a as, rn => (∃ a2, step a rn = .ok false a2) ∧ AllReject as rn

/-! ## General lemmas about driving an acceptor -/

/-- A panic-free run answers one boolean per input character. -/
theorem runOk_length {ε : Type} : ∀ (cs : List Char) (a : Acceptor ε)
    (bs : List Bool) (a2 : Acceptor ε),
    runOk a cs = some (bs, a2) → bs.length = cs.length
  | [], a, bs, a2, h => by
      simp only [runOk] at h
      cases h
      rfl
  | c :: cs, a, bs, a2, h => by
      simp only [runOk] at h
      split at h
      next b a1 hstep =>
        split at h
        next p hrun =>
          cases h
          simpa using runOk_length cs a1 p.1 p.2 hrun
        next => exact absurd h (by simp)
      next e hstep => exact absurd h (by simp)
      next hstep => exact absurd h (by simp)

/-- On a panic-free run the trace is the list of boolean returns. -/
theorem runOk_trace {ε : Type} : ∀ (cs : List Char) (a : Acceptor ε)
    (bs : List Bool) (a2 : Acceptor ε),
    runOk a cs = some (bs, a2) → trace a cs = bs.map Outcome.ret
  | [], a, bs, a2, h => by
      simp only [runOk] at h
      cases h
      rfl
  | c :: cs, a, bs, a2, h => by
      simp only [runOk] at h
      split at h
      next b a1 hstep =>
        split at h
        next p hrun =>
          cases h
          have := runOk_trace cs a1 p.1 p.2 hrun
          simp [trace, hstep, this]
        next => exact absurd h (by simp)
      next e hstep => exact absurd h (by simp)
      next hstep => exact absurd h (by simp)

/-- When `count < max`, one call on `Truncate` consults the wrapped
acceptor: acceptance increments the count, rejection leaves it unchanged,
and a panic propagates. -/
theorem step_truncate_lt {ε : Type} (max k : Int) (acc : Acceptor ε) (c : Char)
    (hk : k < max) :
    step (Acceptor.truncate max k acc) c
      = match step acc c with
        | .ok true acc2 => .ok true (.truncate max (k + 1) acc2)
        | .ok false acc2 => .ok false (.truncate max k acc2)
        | .raised e => .raised e
        | .nilCall => .nilCall := by
  simp [step, hk]

/-- Once the count has reached the ceiling, `Truncate` no longer consults
the wrapped acceptor and answers false forever, its state unchanged. -/
theorem runOk_truncate_maxed {ε : Type} : ∀ (cs : List Char) (max k : Int)
    (acc : Acceptor ε), max ≤ k →
    runOk (Acceptor.truncate max k acc) cs
      = some (cs.map (fun _ => false), Acceptor.truncate max k acc)
  | [], _, _, _, _ => rfl
  | c :: cs, max, k, acc, hk => by
      have hlt : ¬(k < max) := by omega
      simp [runOk, step, hlt, runOk_truncate_maxed cs max k acc hk]

/-- Invariant of a panic-free run of `Truncate`: the number of true
answers is bounded by the remaining budget `max - count`, and the final
count is the initial count plus the number of true answers. -/
theorem runOk_truncate_inv {ε : Type} : ∀ (cs : List Char) (max k : Int)
    (acc : Acceptor ε) (bs : List Bool) (a2 : Acceptor ε),
    runOk (Acceptor.truncate max k acc) cs = some (bs, a2) →
    bs.count true ≤ (max - k).toNat
    ∧ ∃ acc2, a2 = Acceptor.truncate max (k + bs.count true) acc2
  | [], max, k, acc, bs, a2, h => by
      simp only [runOk] at h
      cases h
      exact ⟨by simp, acc, by simp⟩
  | c :: cs, max, k, acc, bs, a2, h => by
      simp only [runOk] at h
      by_cases hk : k < max
      · rw [step_truncate_lt max k acc c hk] at h
        cases hstep : step acc c <;> rw [hstep] at h
        next b acc1 =>
          cases b
          case false =>
            dsimp only at h
            split at h
            next p hrun =>
              cases h
              obtain ⟨hcnt, acc2, hst⟩ := runOk_truncate_inv cs max k acc1 p.1 p.2 hrun
              exact ⟨by simpa using hcnt, acc2, by simpa using hst⟩
            next => exact absurd h (by simp)
          case true =>
            dsimp only at h
            split at h
            next p hrun =>
              cases h
              obtain ⟨hcnt, acc2, hst⟩ := runOk_truncate_inv cs max (k + 1) acc1 p.1 p.2 hrun
              have hc : (true :: p.1).count true = p.1.count true + 1 := by simp
              constructor
              · omega
              · refine ⟨acc2, ?_⟩
                rw [hst, show k + ((true :: p.1).count true : Int)
                    = k + 1 + (p.1.count true : Int) by omega]
            next => exact absurd h (by simp)
        next e =>
          dsimp only at h
          exact absurd h (by simp)
        next =>
          dsimp only at h
          exact absurd h (by simp)
      · have hstep : step (Acceptor.truncate max k acc) c
            = StepRes.ok false (Acceptor.truncate max k acc) := by
          simp [step, hk]
        rw [hstep] at h
        dsimp only at h
        split at h
        next p hrun =>
          cases h
          obtain ⟨hcnt, acc2, hst⟩ := runOk_truncate_inv cs max k acc p.1 p.2 hrun
          exact ⟨by simpa using hcnt, acc2, by simpa using hst⟩
        next => exact absurd h (by simp)

/-- If every candidate rejects the character with a normal return, the
first call of `FirstOf` answers `false` and sets the internal continuation
to the nil function value (`return false, nil`). -/
theorem allReject_stepFirstOf {ε : Type} : ∀ (accs : AccList ε) (rn : Char),
    AllReject accs rn → stepFirstOf accs rn = StepRes.ok false Acceptor.dead
  | .nil, _, _ => rfl
  | .cons a as, rn, h => by
      obtain ⟨⟨a2, ha⟩, hrest⟩ := h
      simp only [stepFirstOf, ha]
      exact allReject_stepFirstOf as rn hrest

/-- An exhausted chain (cursor past the last acceptor) answers false
forever, its state unchanged. -/
theorem runOk_chain_exhausted {ε : Type} : ∀ (cs : List Char),
    runOk (Acceptor.chain (.nil : AccList ε)) cs
      = some (cs.map (fun _ => false), Acceptor.chain .nil)
  | [] => rfl
  | c :: cs => by
      simp [runOk, step, stepChain, runOk_chain_exhausted cs]

/-- Two constant-false maps agree when the underlying lists have the same
length. -/
theorem map_false_of_length_eq (l1 : List Bool) (l2 : List Char)
    (h : l1.length = l2.length) :
    l2.map (fun _ => false) = l1.map (fun _ => false) := by
  rw [List.map_const', List.map_const', h]

/-- A one-element chain mirrors the wrapped acceptor's answers up to and
including its first rejection; from then on the exhausted chain answers
false unconditionally. -/
theorem runOk_chain_one {ε : Type} : ∀ (cs : List Char) (acc : Acceptor ε)
    (bs : List Bool) (aEnd : Acceptor ε),
    runOk acc cs = some (bs, aEnd) →
    ∃ a2, runOk (Acceptor.chain (.cons acc .nil)) cs = some (chainOneExpect bs, a2)
  | [], acc, bs, aEnd, h => by
      simp only [runOk] at h
      cases h
      exact ⟨Acceptor.chain (.cons acc .nil), rfl⟩
  | c :: cs, acc, bs, aEnd, h => by
      simp only [runOk] at h
      split at h
      next b acc1 hstep =>
        split at h
        next p hrun =>
          cases h
          cases b
          case false =>
            have hlen := runOk_length cs acc1 p.1 p.2 hrun
            refine ⟨Acceptor.chain .nil, ?_⟩
            simp [runOk, step, stepChain, hstep, runOk_chain_exhausted cs,
              chainOneExpect, map_false_of_length_eq p.1 cs hlen]
          case true =>
            obtain ⟨a2, ih⟩ := runOk_chain_one cs acc1 p.1 p.2 hrun
            refine ⟨a2, ?_⟩
            simp [runOk, step, stepChain, hstep, ih, chainOneExpect]
        next => exact absurd h (by simp)
      next e hstep => exact absurd h (by simp)
      next hstep => exact absurd h (by simp)

/-- If the acceptor at the chain's cursor rejects the character, the call
behaves exactly as if the chain started at the next acceptor. -/
theorem runOk_chain_cons_reject {ε : Type} (t t2 : Acceptor ε) (l : AccList ε)
    (c : Char) (cs : List Char) (h : step t c = StepRes.ok false t2) :
    runOk (Acceptor.chain (.cons t l)) (c :: cs) = runOk (Acceptor.chain l) (c :: cs) := by
  have hs : step (Acceptor.chain (.cons t l)) c = step (Acceptor.chain l) c := by
    simp [step, stepChain, h]
  simp only [runOk, hs]

/-- While the skip counter is below its bound, `Chain(Truncate(n, All()),
acc)` accepts each character unconditionally, incrementing the counter. -/
theorem runOk_skip_phase {ε : Type} (n : Int) (acc : Acceptor ε) : ∀ (pre : List Char)
    (k : Int) (rest : List Char), k + pre.length = n →
    runOk (Acceptor.chain (.cons (Acceptor.truncate n k All) (.cons acc .nil))) (pre ++ rest)
      = (runOk (Acceptor.chain (.cons (Acceptor.truncate n n All) (.cons acc .nil))) rest).map
          (fun p => (pre.map (fun _ => true) ++ p.1, p.2))
  | [], k, rest, hk => by
      have hkn : k = n := by simpa using hk
      subst hkn
      cases hr : runOk (Acceptor.chain
          (.cons (Acceptor.truncate k k All) (.cons acc .nil))) rest with
      | none => simp [hr]
      | some p => simp [hr]
  | c :: pre, k, rest, hk => by
      simp only [List.length_cons] at hk
      have hkn : k < n := by push_cast at hk; omega
      have hstepc : step (Acceptor.chain
            (.cons (Acceptor.truncate n k All) ((.cons acc .nil) : AccList ε))) c
          = StepRes.ok true (Acceptor.chain
              (.cons (Acceptor.truncate n (k + 1) All) (.cons acc .nil))) := by
        simp [step, stepChain, All, hkn]
      have ih := runOk_skip_phase n acc pre (k + 1) rest (by push_cast at hk ⊢; omega)
      simp only [List.cons_append, runOk, hstepc, ih]
      cases hr : runOk (Acceptor.chain
          (.cons (Acceptor.truncate n n All) (.cons acc .nil))) rest with
      | none => simp [hr, ih]
      | some p => simp [hr, ih]

/-- Once the `seen` flag of `EndsWith` is set, every call answers false
and the state never changes. -/
theorem endsWith_seen_rejects {ε : Type} : ∀ (cs : List Char) (delim : Char)
    (acc : Acceptor ε),
    trace (Acceptor.endsWith true delim acc) cs = cs.map fun _ => Outcome.ret false
  | [], _, _ => rfl
  | c :: cs, delim, acc => by
      simp [trace, step, endsWith_seen_rejects cs delim acc]

/-! ## The claims -/

/-- C1 (amended): if no component acceptor accepts the first character,
the first call of `FirstOf(accs...)` returns false and sets the internal
continuation to nil; the next call on the instance invokes the nil
continuation, which is a Go runtime panic — it does not return false. -/
theorem firstOf_total_reject_then_nil_panic (ε : Type) (accs : AccList ε)
    (c c2 : Char) (cs : List Char) (h : AllReject accs c) :
    trace (FirstOf accs) (c :: c2 :: cs) = [Outcome.ret false, Outcome.nilFail] := by
  have h1 : stepFirstOf accs c = StepRes.ok false Acceptor.dead :=
    allReject_stepFirstOf accs c h
  simp [trace, step, FirstOf, h1]

/-- C1 witness: `FirstOf(Acc('a'))` driven with "bb": the first call
returns false, the second call hits the nil continuation. -/
theorem firstOf_total_reject_then_nil_panic_witness :
    trace ((FirstOf (.cons (Acc (Spec.rune 'a')) .nil)) : Acceptor Nat) ['b', 'b']
      = [Outcome.ret false, Outcome.nilFail] :=
  firstOf_total_reject_then_nil_panic Nat (.cons (Acc (Spec.rune 'a')) .nil) 'b' 'b' []
    ⟨⟨Acceptor.pred fun rn => rn == 'a', rfl⟩, trivial⟩

/-- C1 counterexample: on `FirstOf(Acc('a'))` driven with "bb" the second
call does not return false (the claimed permanent rejection): it is the
nil-function-call runtime panic. -/
theorem firstOf_permanent_reject_cex :
    trace ((FirstOf (.cons (Acc (Spec.rune 'a')) .nil)) : Acceptor Nat) ['b', 'b']
      = [Outcome.ret false, Outcome.nilFail]
    ∧ (Outcome.nilFail : Outcome Nat) ≠ Outcome.ret false :=
  ⟨rfl, by decide⟩

/-- C2 (amended): after a call on which `Truncate(max, acc)` consults
`acc` (count < max) and `acc` rejects, that call returns false and the
count is unchanged; rejection by the wrapped acceptor is not permanent —
a next character that `acc` accepts (count still below max) is accepted. -/
theorem truncate_reject_keeps_count (ε : Type) (max count : Int)
    (acc a1 a2 : Acceptor ε) (c1 c2 : Char) (hm : count < max)
    (h1 : step acc c1 = StepRes.ok false a1) (h2 : step a1 c2 = StepRes.ok true a2) :
    trace (Acceptor.truncate max count acc) [c1, c2]
      = [Outcome.ret false, Outcome.ret true] := by
  simp [trace, step, hm, h1, h2]

/-- C2 witness: `Truncate(3, Acc('x'))` on "yx" answers false then true. -/
theorem truncate_reject_keeps_count_witness :
    trace ((Truncate 3 (Acc (Spec.rune 'x'))) : Acceptor Nat) ['y', 'x']
      = [Outcome.ret false, Outcome.ret true] :=
  truncate_reject_keeps_count Nat 3 0 (Acc (Spec.rune 'x'))
    (Acceptor.pred fun rn => rn == 'x') (Acceptor.pred fun rn => rn == 'x')
    'y' 'x' (by decide) rfl rfl

/-- C2 counterexample: `Truncate(3, Acc('x'))` driven with "yx": the first
call consults `acc`, which rejects 'y', yet the very next call returns
true — rejection by the wrapped acceptor is not permanent. -/
theorem truncate_reject_permanence_cex :
    trace ((Truncate 3 (Acc (Spec.rune 'x'))) : Acceptor Nat) ['y', 'x']
      = [Outcome.ret false, Outcome.ret true]
    ∧ (Outcome.ret true : Outcome Nat) ≠ Outcome.ret false :=
  ⟨rfl, by decide⟩

/-- C3 counterexample: `Skip(1, Acc('x'))` on "axax" answers
[true, true, false, false], but a fresh `Acc('x')` on the remaining
characters "xax" answers [true, false, true]: from the second character
onward the answers are not identical to a fresh instance of the wrapped
acceptor (the fourth call answers false where the fresh acceptor's third
answers true). -/
theorem skip_fresh_delegate_cex :
    trace ((Skip 1 (Acc (Spec.rune 'x'))) : Acceptor Nat) ['a', 'x', 'a', 'x']
      = [Outcome.ret true, Outcome.ret true, Outcome.ret false, Outcome.ret false]
    ∧ trace ((Acc (Spec.rune 'x')) : Acceptor Nat) ['x', 'a', 'x']
      = [Outcome.ret true, Outcome.ret false, Outcome.ret true]
    ∧ (Outcome.ret false : Outcome Nat) ≠ Outcome.ret true :=
  ⟨rfl, rfl, by decide⟩

/-- C3 (amended): `Skip(n, acc)` accepts its first n characters
unconditionally; from the (n+1)-th character onward it mirrors the wrapped
acceptor's answers only up to and including the wrapped acceptor's first
rejection, after which the chain's cursor has moved past `acc` and every
further call answers false (which can differ from a fresh instance of
`acc`). -/
theorem skip_unconditional_then_chain_delegate (ε : Type) (n : Int) (acc : Acceptor ε)
    (pre rest : List Char) (bs : List Bool) (aEnd : Acceptor ε)
    (hlen : (pre.length : Int) = n) (h : runOk acc rest = some (bs, aEnd)) :
    trace (Skip n acc) (pre ++ rest)
      = (pre.map (fun _ => true) ++ chainOneExpect bs).map Outcome.ret := by
  have hphase := runOk_skip_phase n acc pre 0 rest (by omega)
  show trace (Acceptor.chain (.cons (Acceptor.truncate n 0 All) (.cons acc .nil))) (pre ++ rest)
      = (pre.map (fun _ => true) ++ chainOneExpect bs).map Outcome.ret
  cases rest with
  | nil =>
      simp only [runOk] at h
      cases h
      have h2 : runOk (Acceptor.chain (.cons (Acceptor.truncate n 0 All)
            ((.cons acc .nil) : AccList ε))) (pre ++ ([] : List Char))
          = some (pre.map (fun _ => true),
              Acceptor.chain (.cons (Acceptor.truncate n n All) (.cons acc .nil))) := by
        rw [hphase]
        simp [runOk]
      have h3 := runOk_trace (pre ++ []) _ _ _ h2
      simpa [chainOneExpect] using h3
  | cons c rest2 =>
      have hreject : step (Acceptor.truncate n n All : Acceptor ε) c
          = StepRes.ok false (Acceptor.truncate n n All) := by
        simp [step]
      obtain ⟨a2, h4⟩ := runOk_chain_one (c :: rest2) acc bs aEnd h
      have h5 : runOk (Acceptor.chain (.cons (Acceptor.truncate n 0 All)
            ((.cons acc .nil) : AccList ε))) (pre ++ c :: rest2)
          = some (pre.map (fun _ => true) ++ chainOneExpect bs, a2) := by
        rw [hphase, runOk_chain_cons_reject (Acceptor.truncate n n All)
          (Acceptor.truncate n n All) (.cons acc .nil) c rest2 hreject, h4]
        rfl
      have h6 := runOk_trace (pre ++ c :: rest2) _ _ _ h5
      exact h6

/-- C3 witness: `Skip(1, Acc('x'))` on "axax": the first character is
skipped, then the chain mirrors `Acc('x')` until its first rejection and
rejects from then on. -/
theorem skip_unconditional_then_chain_delegate_witness :
    trace ((Skip 1 (Acc (Spec.rune 'x'))) : Acceptor Nat) ['a', 'x', 'a', 'x']
      = [Outcome.ret true, Outcome.ret true, Outcome.ret false, Outcome.ret false] :=
  skip_unconditional_then_chain_delegate Nat 1 (Acc (Spec.rune 'x')) ['a'] ['x', 'a', 'x']
    [true, false, true] (Acceptor.pred fun rn => rn == 'x') (by decide) rfl

/-- C4 counterexample: driving `EndsBefore('m', All())` with
"This is a demo." does not return false at index 11 — the character there
is 'e' (the first 'm' is at index 12) and the call returns true. -/
theorem endsBefore_demo_cex :
    (trace ((EndsBefore 'm' All) : Acceptor Nat) "This is a demo.".data)[11]?
      = some (Outcome.ret true)
    ∧ (some (Outcome.ret true) : Option (Outcome Nat)) ≠ some (Outcome.ret false) :=
  ⟨by decide, by decide⟩

/-- C4 (amended): driving `EndsBefore('m', All())` with the characters of
"This is a demo." returns true at indices 0 through 11 ("This is a de"),
false at index 12 (the first 'm'), and true again afterwards; the consumed
string up to and including the rejecting character is "This is a dem" and
the remainder is "o.". -/
theorem endsBefore_demo_amended :
    trace ((EndsBefore 'm' All) : Acceptor Nat) "This is a demo.".data
      = List.replicate 12 (Outcome.ret true)
        ++ [Outcome.ret false, Outcome.ret true, Outcome.ret true]
    ∧ "This is a demo.".data.take 13 = "This is a dem".data
    ∧ "This is a demo.".data.drop 13 = "o.".data :=
  ⟨by decide, by decide, by decide⟩

/-- C5 (confirmed): on any panic-free run of `Truncate(max, acc)` with
`max ≥ 0`, at most `max` calls return true, and once `max` calls have
returned true every further call returns false with the state unchanged,
no matter what `acc` would answer. -/
theorem truncate_count_invariant (ε : Type) (max : Int) (acc : Acceptor ε)
    (cs : List Char) (bs : List Bool) (a2 : Acceptor ε) (hm : 0 ≤ max)
    (h : runOk (Truncate max acc) cs = some (bs, a2)) :
    bs.count true ≤ max.toNat
    ∧ (bs.count true = max.toNat → ∀ cs2 : List Char,
        runOk a2 cs2 = some (cs2.map fun _ => false, a2)) := by
  obtain ⟨hcnt, acc2, hst⟩ := runOk_truncate_inv cs max 0 acc bs a2 h
  constructor
  · omega
  · intro hfull cs2
    subst hst
    exact runOk_truncate_maxed cs2 max _ acc2 (by omega)

/-- C5 witness: `Truncate(1, Acc('x'))` on "xx" answers true once; the
exhausted instance then answers false on a further 'x'. -/
theorem truncate_count_invariant_witness :
    ([true, false].count true ≤ (1 : Int).toNat)
    ∧ runOk (Acceptor.truncate 1 1 (Acceptor.pred fun rn => rn == 'x') : Acceptor Nat) ['x']
        = some ([false], Acceptor.truncate 1 1 (Acceptor.pred fun rn => rn == 'x')) := by
  have h := truncate_count_invariant Nat 1 (Acc (Spec.rune 'x')) ['x', 'x'] [true, false]
    (Acceptor.truncate 1 1 (Acceptor.pred fun rn => rn == 'x')) (by decide) rfl
  exact ⟨h.1, h.2 rfl ['x']⟩

/-- C6 (confirmed): `Chain(Truncate(1, Acc('x')), Acc('y'))` answers
[true, true] on "xy", [true, true] on "yy" (the first 'y' falls through to
the 'y'-acceptor), and [true, false] on "xx" (the second 'x' exhausts both
stages). -/
theorem chain_truncate_fallthrough_demo :
    (trace ((Chain (.cons (Truncate 1 (Acc (Spec.rune 'x')))
        (.cons (Acc (Spec.rune 'y')) .nil))) : Acceptor Nat) ['x', 'y']
      = [Outcome.ret true, Outcome.ret true])
    ∧ (trace ((Chain (.cons (Truncate 1 (Acc (Spec.rune 'x')))
        (.cons (Acc (Spec.rune 'y')) .nil))) : Acceptor Nat) ['y', 'y']
      = [Outcome.ret true, Outcome.ret true])
    ∧ (trace ((Chain (.cons (Truncate 1 (Acc (Spec.rune 'x')))
        (.cons (Acc (Spec.rune 'y')) .nil))) : Acceptor Nat) ['x', 'x']
      = [Outcome.ret true, Outcome.ret false]) :=
  ⟨rfl, rfl, rfl⟩

/-- C7 (confirmed): on any stream containing the delimiter, with the
wrapped acceptor panic-free before it, `EndsWith(delim, acc)` accepts the
first occurrence of the delimiter (one true), and every call after that
acceptance returns false for every character — including characters `acc`
would accept and further occurrences of the delimiter. -/
theorem endsWith_delim_accepted_once (ε : Type) : ∀ (pre : List Char) (delim : Char)
    (acc : Acceptor ε) (post : List Char) (bs : List Bool) (a1 : Acceptor ε),
    delim ∉ pre → runOk acc pre = some (bs, a1) →
    trace (EndsWith delim acc) (pre ++ delim :: post)
      = bs.map Outcome.ret ++ Outcome.ret true :: post.map (fun _ => Outcome.ret false)
  | [], delim, acc, post, bs, a1, _, h => by
      simp only [runOk] at h
      cases h
      simp [EndsWith, trace, step, endsWith_seen_rejects]
  | c :: pre, delim, acc, post, bs, a1, hpre, h => by
      simp only [runOk] at h
      split at h
      next b a0 hstep =>
        split at h
        next p hrun =>
          cases h
          have hne : ¬(c = delim) := fun hc => hpre (by simp [hc])
          have ih := endsWith_delim_accepted_once ε pre delim a0 post p.1 p.2
            (fun hm => hpre (List.mem_cons_of_mem _ hm)) hrun
          simp only [EndsWith] at ih ⊢
          simp [trace, step, hne, hstep, ih]
        next => exact absurd h (by simp)
      next e hstep => exact absurd h (by simp)
      next hstep => exact absurd h (by simp)

/-- C7 witness: `EndsWith('m', All())` on "ammb" answers true (from
`All`), true at the first 'm', then false on the second 'm' and on 'b'. -/
theorem endsWith_delim_accepted_once_witness :
    trace ((EndsWith 'm' All) : Acceptor Nat) ['a', 'm', 'm', 'b']
      = [Outcome.ret true, Outcome.ret true, Outcome.ret false, Outcome.ret false] :=
  endsWith_delim_accepted_once Nat ['a'] 'm' All ['m', 'b'] [true] All
    (by decide) rfl

/-- C8 (confirmed): the first call on `AssertStart(acc, err)` raises the
supplied payload `err` unmodified exactly when `acc` rejects the first
character; when `acc` accepts it, the call returns true and the instance
continues exactly as `acc` itself (same continuation state). -/
theorem assertStart_first_call (ε : Type) (acc : Acceptor ε) (err : ε) (c : Char)
    (b : Bool) (a2 : Acceptor ε) (cs : List Char) (h : step acc c = StepRes.ok b a2) :
    trace (AssertStart acc err) (c :: cs)
      = if b then Outcome.ret true :: trace a2 cs else [Outcome.raised err] := by
  cases b <;> simp [trace, AssertStart, step, h]

/-- C8 witness: `AssertStart(Acc('x'), 7)` driven with "yx" raises 7 on
the first call. -/
theorem assertStart_first_call_witness :
    trace ((AssertStart (Acc (Spec.rune 'x')) 7) : Acceptor Nat) ['y', 'x']
      = [Outcome.raised 7] :=
  assertStart_first_call Nat (Acc (Spec.rune 'x')) 7 'y' false
    (Acceptor.pred fun rn => rn == 'x') ['x'] rfl

/-- C9 (confirmed): `Acc` on an unrecognized spec kind returns the nil
acceptor (and, being a total function of the spec, raises nothing); on a
spec that is already an `Acceptor` it is the identity. -/
theorem acc_unrecognized_spec_nil (ε : Type) (a : Acceptor ε) :
    Acc (Spec.other : Spec ε) = Acceptor.dead ∧ Acc (Spec.acceptor a) = a :=
  ⟨rfl, rfl⟩

/-- C10 (confirmed): `EndsBefore(delim, acc)` with a stateless `acc` keeps
no state of its own: on any stream every call answers true exactly when
the character differs from `delim` and `acc` accepts it, and the instance
state never changes — seeing the delimiter does not latch the acceptor
into permanent rejection. -/
theorem endsBefore_is_stateless (ε : Type) (delim : Char) (f : Char → Bool)
    (cs : List Char) :
    runOk (EndsBefore delim ((Acceptor.pred f) : Acceptor ε)) cs
      = some (cs.map (fun rn => if rn == delim then false else f rn),
              EndsBefore delim (Acceptor.pred f)) := by
  simp only [EndsBefore]
  induction cs with
  | nil => rfl
  | cons c cs ih =>
      by_cases h : c = delim
      · subst h
        simp [runOk, step, ih]
      · simp [runOk, step, h, ih]

end CompLex
